import Mathlib

/-!
Shallow embedding of the session-selection core of go-livepeer
(server/selection.go): the latency-score min-heap selector
(MinLSSelector, built on Go's container/heap over sessHeap) and the
LIFO selector, together with the stake-oracle contract they consume.

Modelling conventions:
  * A BroadcastSession is identified by a numeric id; the only fields this
    core reads are LatencyScore (a float in Go, modelled as a rational,
    which preserves the strict order used by the comparisons) and the
    stake address derived via ethcommon.BytesToAddress from
    OrchestratorInfo.TicketParams.Recipient (BytesToAddress is a fixed
    external encoding, so the derived address is modelled directly as a
    natural number field Recipient).
  * Go slices become Lean lists; int64 stake arithmetic never approaches
    the 64-bit range in any property considered, so stakes are unbounded
    integers.
  * The external stake oracle is a function from the queried address list
    to either an error or the returned map, the map being its key-value
    pairs; Go map lookup with its zero default is mapGet below.
  * math/rand.Int63n is external. Modelled from the spec: it returns a
    uniformly distributed integer in the half-open interval from 0 to n;
    we model the process-wide source as an arbitrary integer seed reduced
    into range with Int.emod, so every theorem quantifies over the seed.
  * Select additionally returns the list of arguments of the oracle calls
    it performed, so that oracle-contract claims can speak about how often
    and with what argument the oracle was invoked.
-/

abbrev Addr := Nat

structure BroadcastSession where
  sid : Nat
  LatencyScore : ℚ
  Recipient : Addr
  deriving DecidableEq, Repr

instance : Inhabited BroadcastSession := ⟨⟨0, 0, 0⟩⟩

/-- Index into a list of sessions, with the (never relevantly used)
default session for out-of-range indices. -/
def idx (l : List BroadcastSession) (k : Nat) : BroadcastSession :=
  l.getD k default

/-- sessHeap.Swap from selection.go: parallel assignment swapping the
entries at positions i and j. -/
def swapL (l : List BroadcastSession) (i j : Nat) : List BroadcastSession :=
  (l.set i (idx l j)).set j (idx l i)

/-- Parent index in the array-encoded binary tree of container/heap. -/
def par (c : Nat) : Nat := (c - 1) / 2

/-- The up procedure of Go's container/heap, specialised to sessHeap.Less
(strict comparison of latency scores): starting from index j, repeatedly
swap with the parent while strictly smaller. -/
def siftup : List BroadcastSession → Nat → List BroadcastSession
  | h, 0 => h
  | h, j + 1 =>
    if (idx h (j + 1)).LatencyScore < (idx h (j / 2)).LatencyScore then
      siftup (swapL h (j / 2) (j + 1)) (j / 2)
    else h
termination_by _ j => j
decreasing_by omega

/-- The smaller-child choice of the down procedure: the right child when
it exists and compares strictly smaller, otherwise the left child. -/
def minChildIdx (h : List BroadcastSession) (i n : Nat) : Nat :=
  if 2 * i + 2 < n ∧
      (idx h (2 * i + 2)).LatencyScore < (idx h (2 * i + 1)).LatencyScore
    then 2 * i + 2 else 2 * i + 1

/-- The down procedure of Go's container/heap specialised to sessHeap:
sift the entry at i down within the prefix of length n, always descending
to the smaller child. -/
def down (h : List BroadcastSession) (i n : Nat) : List BroadcastSession :=
  if h1 : 2 * i + 1 < n then
    if (idx h (minChildIdx h i n)).LatencyScore < (idx h i).LatencyScore then
      down (swapL h i (minChildIdx h i n)) (minChildIdx h i n) n
    else h
  else h
termination_by n - i
decreasing_by
  unfold minChildIdx
  split <;> omega

/-- heap.Push on a sessHeap: append (sessHeap.Push) then sift up the last
index. -/
def heapPush (h : List BroadcastSession) (x : BroadcastSession) :
    List BroadcastSession :=
  siftup (h ++ [x]) h.length

/-- heap.Pop on a sessHeap: swap the root with the last entry, sift the
new root down within the shortened prefix, then remove and return the last
entry (sessHeap.Pop). Only ever called on a non-empty heap in the source;
the structure of Select below guarantees that. -/
def heapPopped (h : List BroadcastSession) : BroadcastSession × List BroadcastSession :=
  let n := h.length - 1
  let h1 := down (swapL h 0 n) 0 n
  (idx h1 n, h1.take n)

/-- The binary min-heap invariant on the prefix of length n: every
non-root entry is at least its parent in latency score. -/
def heapPropN (h : List BroadcastSession) (n : Nat) : Prop :=
  ∀ c, c < n → 0 < c →
    (idx h (par c)).LatencyScore ≤ (idx h c).LatencyScore

/-- The heap invariant on the whole list. -/
def heapProp (h : List BroadcastSession) : Prop := heapPropN h h.length

instance (h : List BroadcastSession) (n : Nat) : Decidable (heapPropN h n) := by
  unfold heapPropN; infer_instance

instance (h : List BroadcastSession) : Decidable (heapProp h) := by
  unfold heapProp; infer_instance

/-- The stake oracle contract of the spec: Stakes takes the address list
and returns either an error or a map from addresses to stakes, the map
given by its key-value pairs. -/
abbrev StakeOracle := List Addr → Except Unit (List (Addr × Int))

/-- Go map lookup with the zero default: the value of the first entry with
the given key, or 0 when absent (a Go map holds each key once, so first
match is the match). -/
def mapGet : List (Addr × Int) → Addr → Int
  | [], _ => 0
  | (k, v) :: rest, a => if k = a then v else mapGet rest a

/-- MinLSSelector state: unscored sessions in arrival order, the scored
min-heap, the optional stake oracle, and the good-enough threshold. -/
structure MinLSSelector where
  unknownSessions : List BroadcastSession
  knownSessions : List BroadcastSession
  stakeRdr : Option StakeOracle
  minLS : ℚ

/-- NewMinLSSelector: empty collections (heap.Init on an empty heap is a
no-op). -/
def NewMinLSSelector (stakeRdr : Option StakeOracle) (minLS : ℚ) : MinLSSelector :=
  { unknownSessions := [], knownSessions := [], stakeRdr := stakeRdr, minLS := minLS }

/-- MinLSSelector.Add: append the new sessions to the unscored list. -/
def MinLSSelector.Add (s : MinLSSelector) (sessions : List BroadcastSession) :
    MinLSSelector :=
  { s with unknownSessions := s.unknownSessions ++ sessions }

/-- MinLSSelector.Complete: heap.Push the session onto the scored heap. -/
def MinLSSelector.Complete (s : MinLSSelector) (sess : BroadcastSession) :
    MinLSSelector :=
  { s with knownSessions := heapPush s.knownSessions sess }

/-- MinLSSelector.Size. -/
def MinLSSelector.Size (s : MinLSSelector) : Nat :=
  s.unknownSessions.length + s.knownSessions.length

/-- MinLSSelector.Clear. -/
def MinLSSelector.Clear (s : MinLSSelector) : MinLSSelector :=
  { s with unknownSessions := [], knownSessions := [], stakeRdr := none }

/-- The per-session address list built by selectUnknownSession:
one entry per unscored session, in order, no deduplication. -/
def stakeAddrs (l : List BroadcastSession) : List Addr :=
  l.map (fun sess => sess.Recipient)

/-- The running weighted-lottery loop: subtract each session's stake from
r in order and return the index of the first session at which the running
value drops to 0 or below, if any. -/
def findWinner (look : Addr → Int) : Int → List BroadcastSession → Option Nat
  | _, [] => none
  | r, sess :: rest =>
    if r - look sess.Recipient ≤ 0 then some 0
    else (findWinner look (r - look sess.Recipient) rest).map (· + 1)

/-- Swap-with-last removal: swap position i with the last position, then
truncate by one. -/
def removeSwapLast (l : List BroadcastSession) (i : Nat) : List BroadcastSession :=
  (l.set i (idx l (l.length - 1))).take (l.length - 1)

/-- MinLSSelector.selectUnknownSession, the stake-weighted selection from
the unscored list. The seed argument models the process-wide random
source consumed by rand.Int63n; the third component of the result records
the argument of each oracle call made. -/
def MinLSSelector.selectUnknownSession (seed : Int) (s : MinLSSelector) :
    Option BroadcastSession × MinLSSelector × List (List Addr) :=
  match s.unknownSessions with
  | [] => (none, s, [])
  | sess0 :: rest =>
    match s.stakeRdr with
    | none => (some sess0, { s with unknownSessions := rest }, [])
    | some rdr =>
      let addrs := stakeAddrs s.unknownSessions
      match rdr addrs with
      | Except.error _ => (none, s, [addrs])
      | Except.ok stakes =>
        let totalStake := (stakes.map Prod.snd).sum
        let r : Int := if 0 < totalStake then seed.emod totalStake else 0
        match findWinner (mapGet stakes) r s.unknownSessions with
        | some i =>
          (some (idx s.unknownSessions i),
           { s with unknownSessions := removeSwapLast s.unknownSessions i },
           [addrs])
        | none => (none, s, [addrs])

/-- MinLSSelector.Select: peek the heap; if empty, or if the minimum
scored session is worse than the threshold while unscored sessions exist,
draw from the unscored collection; otherwise heap.Pop the minimum. -/
def MinLSSelector.Select (seed : Int) (s : MinLSSelector) :
    Option BroadcastSession × MinLSSelector × List (List Addr) :=
  match s.knownSessions with
  | [] => s.selectUnknownSession seed
  | minSess :: _ =>
    if s.minLS < minSess.LatencyScore ∧ s.unknownSessions ≠ [] then
      s.selectUnknownSession seed
    else
      let p := heapPopped s.knownSessions
      (some p.1, { s with knownSessions := p.2 }, [])

/-- LIFOSelector: a bare session list. -/
abbrev LIFOSelector := List BroadcastSession

/-- LIFOSelector.Add: prepend the batch, preserving its order. -/
def LIFOSelector.Add (s : LIFOSelector) (sessions : List BroadcastSession) :
    LIFOSelector :=
  sessions ++ s

/-- LIFOSelector.Complete: append the session at the back. -/
def LIFOSelector.Complete (s : LIFOSelector) (sess : BroadcastSession) :
    LIFOSelector :=
  s ++ [sess]

/-- LIFOSelector.Select: remove and return the last element. The Go code
indexes position length - 1 unconditionally and panics on an empty list;
the panic is modelled as the none result. -/
def LIFOSelector.Select (s : LIFOSelector) :
    Option (BroadcastSession × LIFOSelector) :=
  if s.isEmpty then none
  else some (idx s (s.length - 1), s.take (s.length - 1))

/-- LIFOSelector.Size. -/
def LIFOSelector.Size (s : LIFOSelector) : Nat := s.length

/-- LIFOSelector.Clear. -/
def LIFOSelector.Clear (_ : LIFOSelector) : LIFOSelector := []

/-- The sift-up loop invariant: every parent link holds except possibly
the link into the hole j, and the value above the hole also bounds the
children of j. -/
def UpInv (l : List BroadcastSession) (j : Nat) : Prop :=
  (∀ c, c < l.length → 0 < c → c ≠ j →
    (idx l (par c)).LatencyScore ≤ (idx l c).LatencyScore) ∧
  (∀ c, c < l.length → par c = j → 0 < j →
    (idx l (par j)).LatencyScore ≤ (idx l c).LatencyScore)

/-- The sift-down loop invariant on the prefix of length n: every parent
link holds except possibly the links out of the hole i, and the value
above the hole bounds the children of i. -/
def DownInv (l : List BroadcastSession) (i n : Nat) : Prop :=
  (∀ c, c < n → 0 < c → par c ≠ i →
    (idx l (par c)).LatencyScore ≤ (idx l c).LatencyScore) ∧
  (∀ c, c < n → par c = i → 0 < i →
    (idx l (par i)).LatencyScore ≤ (idx l c).LatencyScore)

/-- States reachable from a freshly constructed selector by the public
operations. -/
inductive Reachable : MinLSSelector → Prop
  | new (rdr : Option StakeOracle) (minLS : ℚ) :
      Reachable (NewMinLSSelector rdr minLS)
  | add (s : MinLSSelector) (sessions : List BroadcastSession) :
      Reachable s → Reachable (s.Add sessions)
  | complete (s : MinLSSelector) (sess : BroadcastSession) :
      Reachable s → Reachable (s.Complete sess)
  | select (s : MinLSSelector) (seed : Int) :
      Reachable s → Reachable (s.Select seed).2.1
  | clear (s : MinLSSelector) : Reachable s → Reachable s.Clear

/-- The condition under which Select routes to the unscored collection. -/
def takesUnscoredPath (s : MinLSSelector) : Prop :=
  s.knownSessions = [] ∨
    (s.minLS < (idx s.knownSessions 0).LatencyScore ∧ s.unknownSessions ≠ [])

instance (s : MinLSSelector) : Decidable (takesUnscoredPath s) := by
  unfold takesUnscoredPath; infer_instance

/-- The total stake the subtraction loop can consume: one lookup per
session, in order. -/
def sumLook (look : Addr → Int) : List BroadcastSession → Int
  | [] => 0
  | sess :: rest => look sess.Recipient + sumLook look rest

/-- The random draw of the oracle path: rand.Int63n of the total stake
when positive (the external seed reduced into range), zero otherwise. -/
def lotteryR (seed : Int) (stakes : List (Addr × Int)) : Int :=
  if 0 < (stakes.map Prod.snd).sum then seed.emod ((stakes.map Prod.snd).sum)
  else 0

/-- The oracle side of the spec contract: every query succeeds, the
returned map holds each key at most once, keys come from the queried
list, and stakes are non-negative. -/
def WellBehaved (rdr : StakeOracle) : Prop :=
  ∀ addrs, ∃ m, rdr addrs = Except.ok m ∧
    (m.map Prod.fst).Nodup ∧
    ∀ p ∈ m, 0 ≤ p.2 ∧ p.1 ∈ addrs

def WellBehavedOpt : Option StakeOracle → Prop
  | none => True
  | some rdr => WellBehaved rdr

/-- All sessions currently held by a MinLSSelector, as a multiset. -/
def sessMultiset (s : MinLSSelector) : Multiset BroadcastSession :=
  (s.unknownSessions : Multiset BroadcastSession)
    + (s.knownSessions : Multiset BroadcastSession)

/-- k repeated Select calls, collecting every returned session in order;
the k-th call consumes the k-th value of the seed stream. -/
def runSelect (seed : Nat → Int) :
    Nat → MinLSSelector → List BroadcastSession × MinLSSelector
  | 0, s => ([], s)
  | Nat.succ n, s =>
    let p := s.Select (seed n)
    let rest := runSelect seed n p.2.1
    (p.1.toList ++ rest.1, rest.2)

/-- A setup call: either Add of a batch or Complete of one session. -/
inductive SetupOp where
  | addOp : List BroadcastSession → SetupOp
  | completeOp : BroadcastSession → SetupOp
  deriving Repr

def applySetup : MinLSSelector → SetupOp → MinLSSelector
  | s, SetupOp.addOp l => s.Add l
  | s, SetupOp.completeOp x => s.Complete x

/-- The selector obtained by running a sequence of Add and Complete calls
on a freshly constructed MinLSSelector. -/
def buildFrom (rdr : Option StakeOracle) (T : ℚ) (ops : List SetupOp) :
    MinLSSelector :=
  ops.foldl applySetup (NewMinLSSelector rdr T)

/-- All sessions mentioned by a setup sequence. -/
def opsSessions : List SetupOp → List BroadcastSession
  | [] => []
  | SetupOp.addOp l :: rest => l ++ opsSessions rest
  | SetupOp.completeOp x :: rest => x :: opsSessions rest

def exA : BroadcastSession := ⟨1, 0, 1⟩

def exB : BroadcastSession := ⟨2, 0, 2⟩

def exC : BroadcastSession := ⟨3, 0, 3⟩

def exHot : BroadcastSession := ⟨4, 80, 4⟩

def exShared1 : BroadcastSession := ⟨5, 0, 7⟩

def exShared2 : BroadcastSession := ⟨6, 0, 7⟩

def errOracle : StakeOracle := fun _ => Except.error ()

def emptyOracle : StakeOracle := fun _ => Except.ok []

def exOracle : StakeOracle := fun _ => Except.ok [(1, 3), (2, 5)]

/-! ### Lemmas and claim theorems -/

theorem minChildIdx_lt (h : List BroadcastSession) (i n : Nat)
    (hn : 2 * i + 1 < n) : i < minChildIdx h i n ∧ minChildIdx h i n < n := by
  unfold minChildIdx; split <;> omega

theorem idx_cons_zero (x : BroadcastSession) (t : List BroadcastSession) :
    idx (x :: t) 0 = x := rfl

theorem idx_cons_succ (x : BroadcastSession) (t : List BroadcastSession) (k : Nat) :
    idx (x :: t) (k + 1) = idx t k := rfl

theorem idx_set (l : List BroadcastSession) (i : Nat) (a : BroadcastSession)
    (k : Nat) :
    idx (l.set i a) k = if i = k ∧ i < l.length then a else idx l k := by
  induction l generalizing i k with
  | nil => simp [idx]
  | cons x t ih =>
    cases i with
    | zero =>
      cases k with
      | zero => simp [idx]
      | succ k => simp [idx, List.set]
    | succ i =>
      cases k with
      | zero => simp [idx, List.set]
      | succ k =>
        simp only [List.set, idx_cons_succ, ih i k, List.length_cons]
        by_cases hik : i = k
        · subst hik
          by_cases hlt : i < t.length <;> simp [hlt, Nat.succ_lt_succ_iff]
        · have hik' : ¬(i + 1 = k + 1) := by omega
          simp [hik, hik']

theorem length_swapL (l : List BroadcastSession) (i j : Nat) :
    (swapL l i j).length = l.length := by
  simp [swapL]

theorem idx_swapL (l : List BroadcastSession) {i j : Nat}
    (hi : i < l.length) (hj : j < l.length) (k : Nat) :
    idx (swapL l i j) k =
      if k = j then idx l i else if k = i then idx l j else idx l k := by
  unfold swapL
  rw [idx_set, idx_set]
  simp only [List.length_set]
  by_cases hkj : k = j
  · subst hkj; simp [hj]
  · have h1 : ¬(j = k) := fun h => hkj h.symm
    by_cases hki : k = i
    · subst hki
      simp [h1, hkj, hi]
    · have h2 : ¬(i = k) := fun h => hki h.symm
      simp [h1, h2, hkj, hki]

theorem multiset_set (l : List BroadcastSession) (i : Nat) (a : BroadcastSession)
    (hi : i < l.length) :
    (idx l i) ::ₘ ((l.set i a : List BroadcastSession) : Multiset BroadcastSession)
      = a ::ₘ (l : Multiset BroadcastSession) := by
  induction l generalizing i with
  | nil => simp at hi
  | cons x t ih =>
    cases i with
    | zero =>
      show x ::ₘ ((a :: t : List BroadcastSession) : Multiset BroadcastSession)
          = a ::ₘ ((x :: t : List BroadcastSession) : Multiset BroadcastSession)
      rw [← Multiset.cons_coe, ← Multiset.cons_coe, Multiset.cons_swap]
    | succ i =>
      have hi' : i < t.length := by simpa using hi
      calc (idx (x :: t) (i + 1)) ::ₘ ((x :: t).set (i + 1) a : List BroadcastSession)
          = idx t i ::ₘ (x ::ₘ (t.set i a : List BroadcastSession)) := by
            simp [idx_cons_succ, List.set]
        _ = x ::ₘ (idx t i ::ₘ (t.set i a : List BroadcastSession)) :=
            Multiset.cons_swap _ _ _
        _ = x ::ₘ (a ::ₘ (t : Multiset BroadcastSession)) := by rw [ih i hi']
        _ = a ::ₘ (x ::ₘ (t : Multiset BroadcastSession)) := Multiset.cons_swap _ _ _
        _ = a ::ₘ ((x :: t : List BroadcastSession) : Multiset BroadcastSession) := by
            simp

theorem multiset_swapL (l : List BroadcastSession) {i j : Nat}
    (hi : i < l.length) (hj : j < l.length) :
    ((swapL l i j : List BroadcastSession) : Multiset BroadcastSession) = l := by
  have hjlen : j < (l.set i (idx l j)).length := by simpa using hj
  have h1 := multiset_set (l.set i (idx l j)) j (idx l i) hjlen
  have h2 := multiset_set l i (idx l j) hi
  have hidx : idx (l.set i (idx l j)) j = idx l j := by
    rw [idx_set]
    by_cases hij : i = j
    · subst hij; simp
    · simp [hij]
  rw [hidx] at h1
  unfold swapL
  exact (Multiset.cons_inj_right _).mp (h1.trans h2)

theorem length_siftup (l : List BroadcastSession) (j : Nat) :
    (siftup l j).length = l.length := by
  induction l, j using siftup.induct with
  | case1 h => rw [siftup]
  | case2 h j hlt ih =>
    rw [siftup, if_pos hlt, ih, length_swapL]
  | case3 h j hge =>
    rw [siftup, if_neg hge]

theorem length_down (l : List BroadcastSession) (i n : Nat) :
    (down l i n).length = l.length := by
  induction l, i, n using down.induct with
  | case1 h i n h1 hlt ih => rw [down, dif_pos h1, if_pos hlt, ih, length_swapL]
  | case2 h i n h1 hge => rw [down, dif_pos h1, if_neg hge]
  | case3 h i n h1 => rw [down, dif_neg h1]

theorem multiset_siftup (l : List BroadcastSession) (j : Nat) :
    j < l.length →
    ((siftup l j : List BroadcastSession) : Multiset BroadcastSession) = l := by
  induction l, j using siftup.induct with
  | case1 h => intro hj; rw [siftup]
  | case2 h j hlt ih =>
    intro hj
    rw [siftup, if_pos hlt]
    have hlen : j / 2 < (swapL h (j / 2) (j + 1)).length := by
      rw [length_swapL]; omega
    rw [ih hlen, multiset_swapL h (by omega) hj]
  | case3 h j hge => intro hj; rw [siftup, if_neg hge]

theorem multiset_down (l : List BroadcastSession) (i n : Nat) :
    n ≤ l.length →
    ((down l i n : List BroadcastSession) : Multiset BroadcastSession) = l := by
  induction l, i, n using down.induct with
  | case1 h i n h1 hlt ih =>
    intro hn
    have hm := minChildIdx_lt h i n h1
    rw [down, dif_pos h1, if_pos hlt]
    have hlen : n ≤ (swapL h i (minChildIdx h i n)).length := by
      rw [length_swapL]; exact hn
    rw [ih hlen, multiset_swapL h (by omega) (by omega)]
  | case2 h i n h1 hge => intro hn; rw [down, dif_pos h1, if_neg hge]
  | case3 h i n h1 => intro hn; rw [down, dif_neg h1]

theorem idx_down_ge (l : List BroadcastSession) (i n k : Nat) :
    n ≤ l.length → n ≤ k → idx (down l i n) k = idx l k := by
  induction l, i, n using down.induct with
  | case1 h i n h1 hlt ih =>
    intro hn hk
    have hm := minChildIdx_lt h i n h1
    rw [down, dif_pos h1, if_pos hlt]
    rw [ih (by rw [length_swapL]; exact hn) hk]
    rw [idx_swapL h (by omega) (by omega) k]
    have hk1 : ¬(k = minChildIdx h i n) := by omega
    have hk2 : ¬(k = i) := by omega
    simp [hk1, hk2]
  | case2 h i n h1 hge => intro hn hk; rw [down, dif_pos h1, if_neg hge]
  | case3 h i n h1 => intro hn hk; rw [down, dif_neg h1]

theorem idx_append_left (l m : List BroadcastSession) (k : Nat)
    (hk : k < l.length) : idx (l ++ m) k = idx l k := by
  unfold idx
  rw [List.getD_eq_getElem?_getD, List.getD_eq_getElem?_getD,
    List.getElem?_append_left hk]

theorem idx_concat_len (l : List BroadcastSession) (x : BroadcastSession) :
    idx (l ++ [x]) l.length = x := by
  unfold idx
  rw [List.getD_eq_getElem?_getD, List.getElem?_concat_length]
  rfl

theorem idx_take (l : List BroadcastSession) (n k : Nat) (hk : k < n) :
    idx (l.take n) k = idx l k := by
  unfold idx
  rw [List.getD_eq_getElem?_getD, List.getD_eq_getElem?_getD,
    List.getElem?_take_of_lt hk]

theorem multiset_take_last (l : List BroadcastSession) (hne : l ≠ []) :
    idx l (l.length - 1) ::ₘ
      ((l.take (l.length - 1) : List BroadcastSession) : Multiset BroadcastSession)
      = (l : Multiset BroadcastSession) := by
  induction l with
  | nil => simp at hne
  | cons x t ih =>
    cases t with
    | nil =>
      show idx [x] 0 ::ₘ (([] : List BroadcastSession) : Multiset BroadcastSession)
          = (([x] : List BroadcastSession) : Multiset BroadcastSession)
      rfl
    | cons y u =>
      have hsucc : (x :: y :: u).length - 1 = ((y :: u).length - 1) + 1 := by
        simp
      rw [hsucc, idx_cons_succ]
      have htake : (x :: y :: u).take (((y :: u).length - 1) + 1)
          = x :: (y :: u).take ((y :: u).length - 1) := rfl
      rw [htake, ← Multiset.cons_coe, Multiset.cons_swap,
        ih (by simp), Multiset.cons_coe]

theorem length_heapPush (h : List BroadcastSession) (x : BroadcastSession) :
    (heapPush h x).length = h.length + 1 := by
  unfold heapPush; rw [length_siftup]; simp

theorem multiset_heapPush (h : List BroadcastSession) (x : BroadcastSession) :
    ((heapPush h x : List BroadcastSession) : Multiset BroadcastSession)
      = x ::ₘ (h : Multiset BroadcastSession) := by
  unfold heapPush
  rw [multiset_siftup _ _ (by simp)]
  exact Multiset.coe_eq_coe.mpr (List.perm_append_singleton x h)

theorem heapPopped_fst (h : List BroadcastSession) (hne : h ≠ []) :
    (heapPopped h).1 = idx h 0 := by
  have hlen : 0 < h.length := List.length_pos.mpr hne
  unfold heapPopped
  simp only []
  rw [idx_down_ge _ _ _ _ (by rw [length_swapL]; omega) (Nat.le_refl _)]
  rw [idx_swapL h (by omega) (by omega) (h.length - 1)]
  simp

theorem length_heapPopped (h : List BroadcastSession) :
    (heapPopped h).2.length = h.length - 1 := by
  unfold heapPopped
  simp only [List.length_take, length_down, length_swapL]
  omega

theorem multiset_heapPopped (h : List BroadcastSession) (hne : h ≠ []) :
    idx h 0 ::ₘ ((heapPopped h).2 : Multiset BroadcastSession)
      = (h : Multiset BroadcastSession) := by
  have hlen : 0 < h.length := List.length_pos.mpr hne
  have hms : ((down (swapL h 0 (h.length - 1)) 0 (h.length - 1) :
      List BroadcastSession) : Multiset BroadcastSession) = h := by
    rw [multiset_down _ _ _ (by rw [length_swapL]; omega),
      multiset_swapL h (by omega) (by omega)]
  have hlen1 : (down (swapL h 0 (h.length - 1)) 0 (h.length - 1)).length
      = h.length := by rw [length_down, length_swapL]
  have hne1 : down (swapL h 0 (h.length - 1)) 0 (h.length - 1) ≠ [] := by
    intro hcon
    rw [hcon] at hlen1
    simp at hlen1
    omega
  have hfst : idx (down (swapL h 0 (h.length - 1)) 0 (h.length - 1))
      (h.length - 1) = idx h 0 := by
    rw [idx_down_ge _ _ _ _ (by rw [length_swapL]; omega) (Nat.le_refl _)]
    rw [idx_swapL h (by omega) (by omega) (h.length - 1)]
    simp
  have := multiset_take_last (down (swapL h 0 (h.length - 1)) 0 (h.length - 1))
    hne1
  rw [hlen1, hfst, hms] at this
  unfold heapPopped
  exact this

theorem heapPropN_le_root (l : List BroadcastSession) (n : Nat)
    (hp : heapPropN l n) (c : Nat) (hc : c < n) :
    (idx l 0).LatencyScore ≤ (idx l c).LatencyScore := by
  induction c using Nat.strong_induction_on with
  | _ c ih =>
    rcases Nat.eq_zero_or_pos c with h0 | hpos
    · subst h0; exact le_refl _
    · have hparlt : par c < c := by unfold par; omega
      exact le_trans (ih (par c) hparlt (by omega)) (hp c hc hpos)

/-- Direct corollaries of idx_swapL for the three index positions. -/
theorem idx_swapL_right (l : List BroadcastSession) {i j : Nat}
    (hi : i < l.length) (hj : j < l.length) :
    idx (swapL l i j) j = idx l i := by
  rw [idx_swapL l hi hj j, if_pos rfl]

theorem idx_swapL_left (l : List BroadcastSession) {i j : Nat}
    (hi : i < l.length) (hj : j < l.length) :
    idx (swapL l i j) i = idx l j := by
  rw [idx_swapL l hi hj i]
  by_cases hij : i = j
  · rw [if_pos hij, hij]
  · rw [if_neg hij, if_pos rfl]

theorem idx_swapL_other (l : List BroadcastSession) {i j : Nat}
    (hi : i < l.length) (hj : j < l.length) {k : Nat}
    (hk1 : k ≠ i) (hk2 : k ≠ j) :
    idx (swapL l i j) k = idx l k := by
  rw [idx_swapL l hi hj k, if_neg hk2, if_neg hk1]

theorem siftup_heapProp (l : List BroadcastSession) (j : Nat) :
    j < l.length → UpInv l j → heapProp (siftup l j) := by
  induction l, j using siftup.induct with
  | case1 h =>
    intro hj hinv
    rw [siftup]
    intro c hc hpos
    exact hinv.1 c hc hpos (by omega)
  | case2 h j hlt ih =>
    intro hj hinv
    rw [siftup, if_pos hlt]
    have hpar1 : par (j + 1) = j / 2 := by unfold par; simp
    have hilt : j / 2 < h.length := by omega
    have hA : idx (swapL h (j / 2) (j + 1)) (j + 1) = idx h (j / 2) :=
      idx_swapL_right h hilt hj
    have hB : idx (swapL h (j / 2) (j + 1)) (j / 2) = idx h (j + 1) :=
      idx_swapL_left h hilt hj
    have hC : ∀ k, k ≠ j / 2 → k ≠ j + 1 →
        idx (swapL h (j / 2) (j + 1)) k = idx h k :=
      fun k hk1 hk2 => idx_swapL_other h hilt hj hk1 hk2
    apply ih (by rw [length_swapL]; omega)
    refine ⟨?_, ?_⟩
    · intro c hc hpos hne
      rw [length_swapL] at hc
      by_cases hcj : c = j + 1
      · subst hcj
        rw [hpar1, hB, hA]
        exact le_of_lt hlt
      · rw [hC c hne hcj]
        by_cases hpcj : par c = j + 1
        · rw [hpcj, hA]
          have h2 := hinv.2 c (by omega) hpcj (by omega)
          rw [hpar1] at h2
          exact h2
        · by_cases hpci : par c = j / 2
          · rw [hpci, hB]
            have h1 := hinv.1 c (by omega) hpos hcj
            rw [hpci] at h1
            exact le_trans (le_of_lt hlt) h1
          · rw [hC (par c) hpci hpcj]
            exact hinv.1 c (by omega) hpos hcj
    · intro c hc hpc hj0
      rw [length_swapL] at hc
      have hpp1 : par (j / 2) ≠ j / 2 := by unfold par; omega
      have hpp2 : par (j / 2) ≠ j + 1 := by unfold par; omega
      rw [hC (par (j / 2)) hpp1 hpp2]
      by_cases hcj : c = j + 1
      · subst hcj
        rw [hA]
        exact hinv.1 (j / 2) (by omega) hj0 (by omega)
      · have hci : c ≠ j / 2 := by unfold par at hpc; omega
        rw [hC c hci hcj]
        have hc0 : 0 < c := by unfold par at hpc; omega
        have h1 := hinv.1 c (by omega) hc0 hcj
        rw [hpc] at h1
        exact le_trans (hinv.1 (j / 2) (by omega) hj0 (by omega)) h1
  | case3 h j hge =>
    intro hj hinv
    rw [siftup, if_neg hge]
    intro c hc hpos
    by_cases hcj : c = j + 1
    · subst hcj
      have hpar1 : par (j + 1) = j / 2 := by unfold par; simp
      rw [hpar1]
      exact not_lt.mp hge
    · exact hinv.1 c hc hpos hcj

theorem heapProp_heapPush (h : List BroadcastSession) (x : BroadcastSession)
    (hp : heapProp h) : heapProp (heapPush h x) := by
  unfold heapPush
  apply siftup_heapProp _ _ (by simp)
  constructor
  · intro c hc hpos hne
    have hc' : c < h.length := by
      simp only [List.length_append, List.length_cons, List.length_nil] at hc
      omega
    have hparc : par c < h.length := by unfold par; omega
    rw [idx_append_left _ _ _ hc', idx_append_left _ _ _ hparc]
    exact hp c hc' hpos
  · intro c hc hpc hj0
    exfalso
    unfold par at hpc
    simp only [List.length_append, List.length_cons, List.length_nil] at hc
    omega

theorem down_heapPropN (l : List BroadcastSession) (i n : Nat) :
    n ≤ l.length → DownInv l i n → heapPropN (down l i n) n := by
  induction l, i, n using down.induct with
  | case1 h i n h1 hlt ih =>
    intro hn hinv
    have hm := minChildIdx_lt h i n h1
    rw [down, dif_pos h1, if_pos hlt]
    have hpm : par (minChildIdx h i n) = i := by
      unfold minChildIdx par
      split <;> omega
    have hmlen : minChildIdx h i n < h.length := by omega
    have hilen : i < h.length := by omega
    have hA : idx (swapL h i (minChildIdx h i n)) (minChildIdx h i n) = idx h i :=
      idx_swapL_right h hilen hmlen
    have hB : idx (swapL h i (minChildIdx h i n)) i = idx h (minChildIdx h i n) :=
      idx_swapL_left h hilen hmlen
    have hC : ∀ k, k ≠ i → k ≠ minChildIdx h i n →
        idx (swapL h i (minChildIdx h i n)) k = idx h k :=
      fun k hk1 hk2 => idx_swapL_other h hilen hmlen hk1 hk2
    have hmin : ∀ c, c < n → 0 < c → par c = i →
        (idx h (minChildIdx h i n)).LatencyScore ≤ (idx h c).LatencyScore := by
      intro c hc hc0 hpc
      by_cases hsplit : 2 * i + 2 < n ∧
          (idx h (2 * i + 2)).LatencyScore < (idx h (2 * i + 1)).LatencyScore
      · have hm_eq : minChildIdx h i n = 2 * i + 2 := by
          unfold minChildIdx; rw [if_pos hsplit]
        rw [hm_eq]
        rcases (by unfold par at hpc; omega : c = 2 * i + 1 ∨ c = 2 * i + 2)
            with hcc | hcc
        · rw [hcc]; exact le_of_lt hsplit.2
        · rw [hcc]
      · have hm_eq : minChildIdx h i n = 2 * i + 1 := by
          unfold minChildIdx; rw [if_neg hsplit]
        rw [hm_eq]
        rcases (by unfold par at hpc; omega : c = 2 * i + 1 ∨ c = 2 * i + 2)
            with hcc | hcc
        · rw [hcc]
        · have h22 : ¬((idx h (2 * i + 2)).LatencyScore
              < (idx h (2 * i + 1)).LatencyScore) := by
            intro hcon
            exact hsplit ⟨by omega, hcon⟩
          rw [hcc]
          exact not_lt.mp h22
    apply ih (by rw [length_swapL]; exact hn)
    refine ⟨?_, ?_⟩
    · intro c hc hpos hpcm
      by_cases hcm : c = minChildIdx h i n
      · subst hcm
        rw [hpm, hB, hA]
        exact le_of_lt hlt
      · by_cases hci : c = i
        · rw [hci] at hpos ⊢
          have hpi1 : par i ≠ i := by unfold par; omega
          have hpi2 : par i ≠ minChildIdx h i n := by
            unfold par at *; omega
          rw [hB, hC (par i) hpi1 hpi2]
          exact hinv.2 (minChildIdx h i n) hm.2 hpm hpos
        · rw [hC c hci hcm]
          by_cases hpci : par c = i
          · rw [hpci, hB]
            exact hmin c hc hpos hpci
          · rw [hC (par c) hpci hpcm]
            exact hinv.1 c hc hpos hpci
    · intro c hc hpc hm0
      rw [hpm, hB]
      have hcgt : minChildIdx h i n < c := by unfold par at hpc; omega
      have hcne1 : c ≠ i := by omega
      have hcne2 : c ≠ minChildIdx h i n := by omega
      rw [hC c hcne1 hcne2]
      have h1 := hinv.1 c hc (by omega) (by omega)
      rw [hpc] at h1
      exact h1
  | case2 h i n h1 hge =>
    intro hn hinv
    rw [down, dif_pos h1, if_neg hge]
    intro c hc hpos
    by_cases hpc : par c = i
    · have hge' := not_lt.mp hge
      rw [hpc]
      by_cases hsplit : 2 * i + 2 < n ∧
          (idx h (2 * i + 2)).LatencyScore < (idx h (2 * i + 1)).LatencyScore
      · have hm_eq : minChildIdx h i n = 2 * i + 2 := by
          unfold minChildIdx; rw [if_pos hsplit]
        rw [hm_eq] at hge'
        rcases (by unfold par at hpc; omega : c = 2 * i + 1 ∨ c = 2 * i + 2)
            with hcc | hcc
        · rw [hcc]; exact le_trans hge' (le_of_lt hsplit.2)
        · rw [hcc]; exact hge'
      · have hm_eq : minChildIdx h i n = 2 * i + 1 := by
          unfold minChildIdx; rw [if_neg hsplit]
        rw [hm_eq] at hge'
        rcases (by unfold par at hpc; omega : c = 2 * i + 1 ∨ c = 2 * i + 2)
            with hcc | hcc
        · rw [hcc]; exact hge'
        · have h22 : ¬((idx h (2 * i + 2)).LatencyScore
              < (idx h (2 * i + 1)).LatencyScore) := by
            intro hcon
            exact hsplit ⟨by omega, hcon⟩
          rw [hcc]
          exact le_trans hge' (not_lt.mp h22)
    · exact hinv.1 c hc hpos hpc
  | case3 h i n h1 =>
    intro hn hinv
    rw [down, dif_neg h1]
    intro c hc hpos
    by_cases hpc : par c = i
    · exfalso; unfold par at hpc; omega
    · exact hinv.1 c hc hpos hpc

theorem heapProp_heapPopped (h : List BroadcastSession) (hp : heapProp h) :
    heapProp (heapPopped h).2 := by
  by_cases hne : h = []
  · subst hne
    intro c hc hpos
    exfalso
    simp [heapPopped, List.length_take, length_down, length_swapL] at hc
  · have hlen : 0 < h.length := List.length_pos.mpr hne
    unfold heapPopped
    simp only []
    intro c hc hpos
    rw [List.length_take, length_down, length_swapL] at hc
    have hcn : c < h.length - 1 := by omega
    have hparc : par c < h.length - 1 := by unfold par; omega
    rw [idx_take _ _ _ hcn, idx_take _ _ _ hparc]
    apply down_heapPropN (swapL h 0 (h.length - 1)) 0 (h.length - 1)
        (by rw [length_swapL]; omega) ?_ c hcn hpos
    refine ⟨?_, ?_⟩
    · intro d hd hdpos hpd
      have hd1 : d ≠ 0 := by omega
      have hd2 : d ≠ h.length - 1 := by omega
      have hp1 : par d ≠ 0 := hpd
      have hp2 : par d ≠ h.length - 1 := by unfold par at *; omega
      rw [idx_swapL_other h (by omega) (by omega) hd1 hd2,
        idx_swapL_other h (by omega) (by omega) hp1 hp2]
      exact hp d (by omega) hdpos
    · intro d hd hpd hi0
      exact absurd hi0 (by omega)

theorem idx_eq_getElem (l : List BroadcastSession) (i : Nat) (hi : i < l.length) :
    idx l i = l[i] := by
  unfold idx
  rw [List.getD_eq_getElem?_getD, List.getElem?_eq_getElem hi]
  rfl

theorem idx_mem (l : List BroadcastSession) (i : Nat) (hi : i < l.length) :
    idx l i ∈ l := by
  rw [idx_eq_getElem l i hi]
  exact List.getElem_mem hi

theorem mem_idx (l : List BroadcastSession) (y : BroadcastSession) (hy : y ∈ l) :
    ∃ i, i < l.length ∧ idx l i = y := by
  obtain ⟨i, hi, hl⟩ := List.getElem_of_mem hy
  exact ⟨i, hi, by rw [idx_eq_getElem l i hi]; exact hl⟩

/-- Under the heap invariant the root bounds every member. -/
theorem heapProp_root_min (h : List BroadcastSession) (hp : heapProp h)
    (y : BroadcastSession) (hy : y ∈ h) :
    (idx h 0).LatencyScore ≤ y.LatencyScore := by
  obtain ⟨i, hi, hidx⟩ := mem_idx h y hy
  rw [← hidx]
  exact heapPropN_le_root h h.length hp i hi

/-- selectUnknownSession never touches the heap, the oracle reference or
the threshold. -/
theorem selectUnknownSession_pres (seed : Int) (s : MinLSSelector) :
    (s.selectUnknownSession seed).2.1.knownSessions = s.knownSessions ∧
    (s.selectUnknownSession seed).2.1.stakeRdr = s.stakeRdr ∧
    (s.selectUnknownSession seed).2.1.minLS = s.minLS := by
  unfold MinLSSelector.selectUnknownSession
  repeat' first
    | split
    | exact ⟨rfl, rfl, rfl⟩
    | simp only []

theorem Select_unscored (seed : Int) (s : MinLSSelector)
    (hpath : takesUnscoredPath s) :
    s.Select seed = s.selectUnknownSession seed := by
  unfold MinLSSelector.Select
  cases hk : s.knownSessions with
  | nil => rfl
  | cons m rest =>
    dsimp only
    rcases hpath with hnil | hcond
    · rw [hk] at hnil; exact absurd hnil (by simp)
    · rw [hk] at hcond
      have hcond' : s.minLS < m.LatencyScore ∧ s.unknownSessions ≠ [] := by
        simpa [idx] using hcond
      rw [if_pos hcond']

theorem Select_heap (seed : Int) (s : MinLSSelector)
    (hne : s.knownSessions ≠ []) (hpath : ¬ takesUnscoredPath s) :
    s.Select seed =
      (some (heapPopped s.knownSessions).1,
       { s with knownSessions := (heapPopped s.knownSessions).2 }, []) := by
  unfold MinLSSelector.Select
  cases hk : s.knownSessions with
  | nil => rw [hk] at hne; exact absurd rfl hne
  | cons m rest =>
    have hcond : ¬(s.minLS < m.LatencyScore ∧ s.unknownSessions ≠ []) := by
      intro hcon
      apply hpath
      right
      rw [hk]
      simpa [idx] using hcon
    dsimp only
    rw [if_neg hcond]

theorem select_known_cases (seed : Int) (s : MinLSSelector) :
    (s.Select seed).2.1.knownSessions = s.knownSessions ∨
    (s.knownSessions ≠ [] ∧
      (s.Select seed).2.1.knownSessions = (heapPopped s.knownSessions).2) := by
  by_cases hpath : takesUnscoredPath s
  · left
    rw [Select_unscored seed s hpath]
    exact (selectUnknownSession_pres seed s).1
  · have hne : s.knownSessions ≠ [] := by
      intro hcon
      exact hpath (Or.inl hcon)
    right
    rw [Select_heap seed s hne hpath]
    exact ⟨hne, rfl⟩

theorem select_pres (seed : Int) (s : MinLSSelector) :
    (s.Select seed).2.1.stakeRdr = s.stakeRdr ∧
    (s.Select seed).2.1.minLS = s.minLS := by
  by_cases hpath : takesUnscoredPath s
  · rw [Select_unscored seed s hpath]
    exact (selectUnknownSession_pres seed s).2
  · have hne : s.knownSessions ≠ [] := fun hcon => hpath (Or.inl hcon)
    rw [Select_heap seed s hne hpath]
    exact ⟨rfl, rfl⟩

/-- Every reachable state satisfies the heap invariant on its scored
collection. -/
theorem reachable_heapProp (s : MinLSSelector) (hr : Reachable s) :
    heapProp s.knownSessions := by
  induction hr with
  | new rdr minLS =>
    intro c hc hpos
    simp [NewMinLSSelector] at hc
  | add s sessions hr ih => exact ih
  | complete s sess hr ih => exact heapProp_heapPush _ _ ih
  | select s seed hr ih =>
    rcases select_known_cases seed s with hsame | ⟨hne, hpop⟩
    · rw [hsame]; exact ih
    · rw [hpop]; exact heapProp_heapPopped _ ih
  | clear s hr ih =>
    intro c hc hpos
    simp [MinLSSelector.Clear] at hc

theorem findWinner_lt_length (look : Addr → Int) (r : Int)
    (l : List BroadcastSession) (i : Nat) :
    findWinner look r l = some i → i < l.length := by
  induction l generalizing r i with
  | nil => intro hcon; simp [findWinner] at hcon
  | cons x rest ih =>
    intro hw
    rw [findWinner] at hw
    by_cases hr : r - look x.Recipient ≤ 0
    · rw [if_pos hr] at hw
      simp at hw
      simp only [List.length_cons]
      omega
    · rw [if_neg hr] at hw
      cases hfw : findWinner look (r - look x.Recipient) rest with
      | none => rw [hfw] at hw; simp at hw
      | some i0 =>
        rw [hfw] at hw
        simp at hw
        have := ih (r - look x.Recipient) i0 hfw
        simp
        omega

theorem findWinner_none (look : Addr → Int) (r : Int)
    (l : List BroadcastSession) (hr : 0 < r)
    (hw : findWinner look r l = none) : sumLook look l < r := by
  induction l generalizing r with
  | nil => simpa [sumLook] using hr
  | cons x rest ih =>
    rw [findWinner] at hw
    by_cases hx : r - look x.Recipient ≤ 0
    · rw [if_pos hx] at hw; simp at hw
    · rw [if_neg hx] at hw
      have hrec : findWinner look (r - look x.Recipient) rest = none := by
        cases hfw : findWinner look (r - look x.Recipient) rest with
        | none => rfl
        | some i0 => rw [hfw] at hw; simp at hw
      have := ih (r - look x.Recipient) (by omega) hrec
      rw [sumLook]
      omega

theorem findWinner_some_exists (look : Addr → Int) (r : Int)
    (l : List BroadcastSession) (hnn : ∀ a, 0 ≤ look a) (hne : l ≠ [])
    (hle : r ≤ sumLook look l) : ∃ i, findWinner look r l = some i := by
  cases hw : findWinner look r l with
  | some i => exact ⟨i, rfl⟩
  | none =>
    exfalso
    by_cases hr : 0 < r
    · have := findWinner_none look r l hr hw
      omega
    · cases l with
      | nil => exact hne rfl
      | cons x rest =>
        rw [findWinner, if_pos (by have := hnn x.Recipient; omega)] at hw
        simp at hw

/-- Characterisation of the winner index: the running value drops to zero
or below at i, and stays positive strictly before i. -/
theorem findWinner_spec (look : Addr → Int) (r : Int)
    (l : List BroadcastSession) (i : Nat)
    (hw : findWinner look r l = some i) :
    i < l.length ∧
    r - sumLook look (l.take (i + 1)) ≤ 0 ∧
    ∀ k, k < i → 0 < r - sumLook look (l.take (k + 1)) := by
  induction l generalizing r i with
  | nil => simp [findWinner] at hw
  | cons x rest ih =>
    rw [findWinner] at hw
    by_cases hx : r - look x.Recipient ≤ 0
    · rw [if_pos hx] at hw
      simp at hw
      subst hw
      refine ⟨by simp, ?_, by intro k hk; omega⟩
      simp only [List.take_succ_cons, List.take_zero, sumLook]
      omega
    · rw [if_neg hx] at hw
      cases hfw : findWinner look (r - look x.Recipient) rest with
      | none => rw [hfw] at hw; simp at hw
      | some i0 =>
        rw [hfw] at hw
        simp at hw
        obtain ⟨h1, h2, h3⟩ := ih (r - look x.Recipient) i0 hfw
        subst hw
        refine ⟨by simp only [List.length_cons]; omega, ?_, ?_⟩
        · simp only [List.take_succ_cons, sumLook]
          omega
        · intro k hk
          cases k with
          | zero =>
            simp only [List.take_succ_cons, List.take_zero, sumLook]
            omega
          | succ k0 =>
            have h4 := h3 k0 (by omega)
            simp only [List.take_succ_cons, sumLook]
            omega

theorem mapGet_nonneg (m : List (Addr × Int)) (hnn : ∀ p ∈ m, 0 ≤ p.2)
    (a : Addr) : 0 ≤ mapGet m a := by
  induction m with
  | nil => simp [mapGet]
  | cons p rest ih =>
    obtain ⟨k, v⟩ := p
    rw [mapGet]
    by_cases hk : k = a
    · rw [if_pos hk]
      exact hnn (k, v) (by simp)
    · rw [if_neg hk]
      exact ih (fun q hq => hnn q (by simp [hq]))

theorem mapGet_eq_zero (m : List (Addr × Int)) (a : Addr)
    (ha : a ∉ m.map Prod.fst) : mapGet m a = 0 := by
  induction m with
  | nil => rfl
  | cons p rest ih =>
    obtain ⟨k, v⟩ := p
    rw [mapGet]
    simp only [List.map_cons, List.mem_cons, not_or] at ha
    rw [if_neg (fun h => ha.1 h.symm)]
    exact ih ha.2

theorem sum_map_add (as : List Addr) (f g : Addr → Int) :
    (as.map (fun a => f a + g a)).sum = (as.map f).sum + (as.map g).sum := by
  induction as with
  | nil => rfl
  | cons a as ih =>
    simp only [List.map_cons, List.sum_cons, ih]
    ring

theorem le_sum_indicator (as : List Addr) (k : Addr) (v : Int)
    (hk : k ∈ as) (hv : 0 ≤ v) :
    v ≤ (as.map (fun a => if k = a then v else 0)).sum := by
  induction as with
  | nil => simp at hk
  | cons a as ih =>
    simp only [List.map_cons, List.sum_cons]
    have hrest : 0 ≤ (as.map (fun a => if k = a then v else 0)).sum := by
      apply List.sum_nonneg
      intro x hx
      simp only [List.mem_map] at hx
      obtain ⟨b, _, hb⟩ := hx
      rw [← hb]
      split
      · exact hv
      · exact le_refl 0
    by_cases hka : k = a
    · rw [if_pos hka]
      omega
    · rw [if_neg hka]
      rcases List.mem_cons.mp hk with h | h
      · exact absurd h hka
      · have := ih h
        omega

theorem mapGet_cons_split (k : Addr) (v : Int) (rest : List (Addr × Int))
    (hk : k ∉ rest.map Prod.fst) (a : Addr) :
    mapGet ((k, v) :: rest) a = (if k = a then v else 0) + mapGet rest a := by
  rw [mapGet]
  by_cases hka : k = a
  · rw [if_pos hka, if_pos hka]
    have hz : mapGet rest a = 0 := mapGet_eq_zero rest a (by rw [← hka]; exact hk)
    omega
  · rw [if_neg hka, if_neg hka]
    omega

/-- The oracle contract implies that walking all sessions can consume the
whole total stake: the sum of the returned values is at most the sum of
the per-address lookups over the queried list. -/
theorem sum_values_le_lookups (m : List (Addr × Int)) (as : List Addr)
    (hnd : (m.map Prod.fst).Nodup)
    (hm : ∀ p ∈ m, 0 ≤ p.2 ∧ p.1 ∈ as) :
    (m.map Prod.snd).sum ≤ (as.map (mapGet m)).sum := by
  induction m with
  | nil =>
    have hz : (as.map (mapGet [])).sum = 0 := by
      have : as.map (mapGet []) = as.map (fun _ => (0 : Int)) := by
        apply List.map_congr_left
        intro a _
        rfl
      rw [this]
      induction as with
      | nil => rfl
      | cons b bs ihb => simpa using ihb
    simp [hz]
  | cons p rest ih =>
    obtain ⟨k, v⟩ := p
    simp only [List.map_cons, List.sum_cons]
    have hknr : k ∉ rest.map Prod.fst := by
      simp only [List.map_cons] at hnd
      exact (List.nodup_cons.mp hnd).1
    have hnd2 : (rest.map Prod.fst).Nodup := by
      simp only [List.map_cons] at hnd
      exact (List.nodup_cons.mp hnd).2
    have hfun : (fun a => (if k = a then v else 0) + mapGet rest a)
        = mapGet ((k, v) :: rest) :=
      funext (fun a => (mapGet_cons_split k v rest hknr a).symm)
    have h1 := le_sum_indicator as k v (hm (k, v) (by simp)).2
      (hm (k, v) (by simp)).1
    have h2 := ih hnd2 (fun q hq => hm q (by simp [hq]))
    have h3 := sum_map_add as (fun a => if k = a then v else 0) (mapGet rest)
    rw [hfun] at h3
    omega

theorem sumLook_eq (look : Addr → Int) (l : List BroadcastSession) :
    sumLook look l = ((stakeAddrs l).map look).sum := by
  induction l with
  | nil => rfl
  | cons x rest ih => simp [sumLook, stakeAddrs, ih]

theorem sumLook_nonneg (look : Addr → Int) (l : List BroadcastSession)
    (hnn : ∀ a, 0 ≤ look a) : 0 ≤ sumLook look l := by
  induction l with
  | nil => exact le_refl 0
  | cons x rest ih =>
    rw [sumLook]
    have := hnn x.Recipient
    omega

theorem length_removeSwapLast (l : List BroadcastSession) (i : Nat) :
    (removeSwapLast l i).length = l.length - 1 := by
  unfold removeSwapLast
  rw [List.length_take, List.length_set, Nat.min_def]
  split <;> omega

theorem multiset_removeSwapLast (l : List BroadcastSession) (i : Nat)
    (hi : i < l.length) :
    idx l i ::ₘ
      ((removeSwapLast l i : List BroadcastSession) : Multiset BroadcastSession)
      = (l : Multiset BroadcastSession) := by
  have hlen : 0 < l.length := by omega
  have hne : l.set i (idx l (l.length - 1)) ≠ [] := by
    intro hcon
    have hcl : (l.set i (idx l (l.length - 1))).length = 0 := by rw [hcon]; rfl
    rw [List.length_set] at hcl
    omega
  have htl := multiset_take_last (l.set i (idx l (l.length - 1))) hne
  rw [List.length_set] at htl
  have hidx : idx (l.set i (idx l (l.length - 1))) (l.length - 1)
      = idx l (l.length - 1) := by
    rw [idx_set]
    split <;> rfl
  rw [hidx] at htl
  have hms := multiset_set l i (idx l (l.length - 1)) hi
  unfold removeSwapLast
  apply (Multiset.cons_inj_right (idx l (l.length - 1))).mp
  calc idx l (l.length - 1) ::ₘ (idx l i ::ₘ
        (((l.set i (idx l (l.length - 1))).take (l.length - 1) :
          List BroadcastSession) : Multiset BroadcastSession))
      = idx l i ::ₘ (idx l (l.length - 1) ::ₘ
        (((l.set i (idx l (l.length - 1))).take (l.length - 1) :
          List BroadcastSession) : Multiset BroadcastSession)) :=
        Multiset.cons_swap _ _ _
    _ = idx l i ::ₘ ((l.set i (idx l (l.length - 1)) :
          List BroadcastSession) : Multiset BroadcastSession) := by rw [htl]
    _ = idx l (l.length - 1) ::ₘ (l : Multiset BroadcastSession) := hms

theorem selectUnknownSession_nil (seed : Int) (k : List BroadcastSession)
    (ro : Option StakeOracle) (T : ℚ) :
    (MinLSSelector.mk [] k ro T).selectUnknownSession seed
      = (none, MinLSSelector.mk [] k ro T, []) := rfl

theorem selectUnknownSession_noOracle (seed : Int) (x : BroadcastSession)
    (rest k : List BroadcastSession) (T : ℚ) :
    (MinLSSelector.mk (x :: rest) k none T).selectUnknownSession seed
      = (some x, MinLSSelector.mk rest k none T, []) := rfl

theorem selectUnknownSession_err (seed : Int) (u k : List BroadcastSession)
    (rdr : StakeOracle) (T : ℚ) (e : Unit)
    (hu : u ≠ []) (he : rdr (stakeAddrs u) = Except.error e) :
    (MinLSSelector.mk u k (some rdr) T).selectUnknownSession seed
      = (none, MinLSSelector.mk u k (some rdr) T, [stakeAddrs u]) := by
  cases u with
  | nil => exact absurd rfl hu
  | cons x rest =>
    unfold MinLSSelector.selectUnknownSession
    dsimp only
    rw [he]

theorem selectUnknownSession_ok (seed : Int) (u k : List BroadcastSession)
    (rdr : StakeOracle) (T : ℚ) (m : List (Addr × Int))
    (hu : u ≠ []) (hok : rdr (stakeAddrs u) = Except.ok m) :
    (MinLSSelector.mk u k (some rdr) T).selectUnknownSession seed
      = match findWinner (mapGet m) (lotteryR seed m) u with
        | some i =>
          (some (idx u i),
           MinLSSelector.mk (removeSwapLast u i) k (some rdr) T,
           [stakeAddrs u])
        | none => (none, MinLSSelector.mk u k (some rdr) T, [stakeAddrs u]) := by
  cases u with
  | nil => exact absurd rfl hu
  | cons x rest =>
    unfold MinLSSelector.selectUnknownSession
    dsimp only
    rw [hok]
    rfl

theorem lottery_finds_winner (seed : Int) (u : List BroadcastSession)
    (m : List (Addr × Int)) (hu : u ≠ [])
    (hnd : (m.map Prod.fst).Nodup)
    (hm : ∀ p ∈ m, 0 ≤ p.2 ∧ p.1 ∈ stakeAddrs u) :
    ∃ i, findWinner (mapGet m) (lotteryR seed m) u = some i := by
  apply findWinner_some_exists
  · exact mapGet_nonneg m (fun p hp => (hm p hp).1)
  · exact hu
  · rw [sumLook_eq]
    unfold lotteryR
    by_cases htot : 0 < (m.map Prod.snd).sum
    · rw [if_pos htot]
      have h1 : seed.emod ((m.map Prod.snd).sum) < (m.map Prod.snd).sum :=
        Int.emod_lt_of_pos seed htot
      have h2 := sum_values_le_lookups m (stakeAddrs u) hnd hm
      omega
    · rw [if_neg htot]
      apply List.sum_nonneg
      intro x hx
      simp only [List.mem_map] at hx
      obtain ⟨a, _, ha⟩ := hx
      rw [← ha]
      exact mapGet_nonneg m (fun p hp => (hm p hp).1) a

theorem sessMultiset_card (s : MinLSSelector) :
    Multiset.card (sessMultiset s) = s.Size := by
  unfold sessMultiset MinLSSelector.Size
  rw [Multiset.card_add, Multiset.coe_card, Multiset.coe_card]

theorem sessMultiset_append (u k : List BroadcastSession)
    (ro : Option StakeOracle) (T : ℚ) :
    sessMultiset (MinLSSelector.mk u k ro T)
      = (u : Multiset BroadcastSession) + (k : Multiset BroadcastSession) := rfl

/-- One successful draw from the unscored list under the oracle contract:
a session is returned and comes off the held multiset; the heap, oracle
and threshold are untouched. -/
theorem selectUnknownSession_success (seed : Int) (s : MinLSSelector)
    (hwb : WellBehavedOpt s.stakeRdr) (hne : s.unknownSessions ≠ []) :
    ∃ x, (s.selectUnknownSession seed).1 = some x ∧
      x ::ₘ ((s.selectUnknownSession seed).2.1.unknownSessions :
        Multiset BroadcastSession) =
        (s.unknownSessions : Multiset BroadcastSession) := by
  obtain ⟨u, k, ro, T⟩ := s
  cases u with
  | nil => exact absurd rfl hne
  | cons x rest =>
    cases ro with
    | none =>
      refine ⟨x, ?_, ?_⟩
      · rw [selectUnknownSession_noOracle]
      · rw [selectUnknownSession_noOracle]
        exact Multiset.cons_coe x rest
    | some rdr =>
      obtain ⟨m, hok, hnd, hm⟩ := hwb (stakeAddrs (x :: rest))
      obtain ⟨i, hfw⟩ :=
        lottery_finds_winner seed (x :: rest) m (by simp) hnd hm
      have hlt := findWinner_lt_length _ _ _ _ hfw
      refine ⟨idx (x :: rest) i, ?_, ?_⟩
      · rw [selectUnknownSession_ok seed (x :: rest) k rdr T m (by simp) hok,
          hfw]
      · rw [selectUnknownSession_ok seed (x :: rest) k rdr T m (by simp) hok,
          hfw]
        exact multiset_removeSwapLast (x :: rest) i hlt

/-- One Select step on a non-empty pool under the oracle contract:
something is returned and the held multiset shrinks by exactly that
session. -/
theorem Select_success (seed : Int) (s : MinLSSelector)
    (hwb : WellBehavedOpt s.stakeRdr) (hsz : 0 < s.Size) :
    ∃ x, (s.Select seed).1 = some x ∧
      x ::ₘ sessMultiset (s.Select seed).2.1 = sessMultiset s := by
  by_cases hpath : takesUnscoredPath s
  · have hne : s.unknownSessions ≠ [] := by
      rcases hpath with hnil | hcond
      · intro hcon
        unfold MinLSSelector.Size at hsz
        rw [hcon, hnil] at hsz
        simp at hsz
      · exact hcond.2
    obtain ⟨x, hsel, hms⟩ := selectUnknownSession_success seed s hwb hne
    rw [Select_unscored seed s hpath]
    refine ⟨x, hsel, ?_⟩
    unfold sessMultiset
    rw [(selectUnknownSession_pres seed s).1]
    rw [← Multiset.cons_add, hms]
  · have hne : s.knownSessions ≠ [] := fun hcon => hpath (Or.inl hcon)
    rw [Select_heap seed s hne hpath]
    refine ⟨(heapPopped s.knownSessions).1, rfl, ?_⟩
    unfold sessMultiset
    dsimp only
    rw [heapPopped_fst _ hne]
    have hpop := multiset_heapPopped s.knownSessions hne
    calc idx s.knownSessions 0 ::ₘ
          ((s.unknownSessions : Multiset BroadcastSession)
            + ((heapPopped s.knownSessions).2 : Multiset BroadcastSession))
        = (s.unknownSessions : Multiset BroadcastSession)
            + (idx s.knownSessions 0 ::ₘ
              ((heapPopped s.knownSessions).2 : Multiset BroadcastSession)) := by
          rw [← Multiset.singleton_add, ← Multiset.singleton_add]
          rw [add_left_comm]
      _ = (s.unknownSessions : Multiset BroadcastSession)
            + (s.knownSessions : Multiset BroadcastSession) := by rw [hpop]

theorem sessMultiset_add (s : MinLSSelector) (l : List BroadcastSession) :
    sessMultiset (s.Add l) = sessMultiset s + (l : Multiset BroadcastSession) := by
  unfold sessMultiset MinLSSelector.Add
  dsimp only
  rw [← Multiset.coe_add]
  rw [add_right_comm]

theorem sessMultiset_complete (s : MinLSSelector) (x : BroadcastSession) :
    sessMultiset (s.Complete x) = x ::ₘ sessMultiset s := by
  unfold sessMultiset MinLSSelector.Complete
  dsimp only
  rw [multiset_heapPush]
  rw [← Multiset.singleton_add, ← Multiset.singleton_add]
  rw [add_left_comm]

theorem applySetup_stakeRdr (s : MinLSSelector) (op : SetupOp) :
    (applySetup s op).stakeRdr = s.stakeRdr := by
  cases op <;> rfl

theorem foldl_applySetup_stakeRdr (ops : List SetupOp) (s : MinLSSelector) :
    (ops.foldl applySetup s).stakeRdr = s.stakeRdr := by
  induction ops generalizing s with
  | nil => rfl
  | cons op rest ih => rw [List.foldl_cons, ih, applySetup_stakeRdr]

theorem buildFrom_stakeRdr (rdr : Option StakeOracle) (T : ℚ)
    (ops : List SetupOp) : (buildFrom rdr T ops).stakeRdr = rdr :=
  foldl_applySetup_stakeRdr ops (NewMinLSSelector rdr T)

theorem foldl_applySetup_multiset (ops : List SetupOp) (s : MinLSSelector) :
    sessMultiset (ops.foldl applySetup s)
      = sessMultiset s + (opsSessions ops : Multiset BroadcastSession) := by
  induction ops generalizing s with
  | nil => simp [opsSessions]
  | cons op rest ih =>
    rw [List.foldl_cons, ih]
    cases op with
    | addOp l =>
      rw [show applySetup s (SetupOp.addOp l) = s.Add l from rfl,
        sessMultiset_add, show opsSessions (SetupOp.addOp l :: rest)
          = l ++ opsSessions rest from rfl]
      rw [← Multiset.coe_add, add_assoc]
    | completeOp x =>
      rw [show applySetup s (SetupOp.completeOp x) = s.Complete x from rfl,
        sessMultiset_complete, show opsSessions (SetupOp.completeOp x :: rest)
          = x :: opsSessions rest from rfl]
      rw [← Multiset.cons_coe, ← Multiset.singleton_add,
        ← Multiset.singleton_add, add_assoc, add_left_comm]

/-- The sessions a setup sequence inserts are exactly the multiset the
resulting selector holds. -/
theorem buildFrom_multiset (rdr : Option StakeOracle) (T : ℚ)
    (ops : List SetupOp) :
    sessMultiset (buildFrom rdr T ops)
      = (opsSessions ops : Multiset BroadcastSession) := by
  unfold buildFrom
  rw [foldl_applySetup_multiset]
  rw [show sessMultiset (NewMinLSSelector rdr T) = 0 from rfl]
  rw [zero_add]

/-- Drain theorem: n Select calls remove exactly n sessions, one per
call, never losing or duplicating any, and never touching the oracle
reference. -/
theorem runSelect_drain (seed : Nat → Int) (n : Nat) (s : MinLSSelector)
    (hwb : WellBehavedOpt s.stakeRdr) (hn : n ≤ s.Size) :
    ((runSelect seed n s).1 : Multiset BroadcastSession)
        + sessMultiset (runSelect seed n s).2 = sessMultiset s ∧
    (runSelect seed n s).2.Size = s.Size - n ∧
    (runSelect seed n s).2.stakeRdr = s.stakeRdr ∧
    (runSelect seed n s).1.length = n := by
  induction n generalizing s with
  | zero =>
    exact ⟨by simp [runSelect, sessMultiset], by simp [runSelect], rfl, rfl⟩
  | succ n ih =>
    have hsz : 0 < s.Size := by omega
    obtain ⟨x, hsel, hms⟩ := Select_success (seed n) s hwb hsz
    have hsz1 : (s.Select (seed n)).2.1.Size + 1 = s.Size := by
      have hcard := congrArg Multiset.card hms
      rw [Multiset.card_cons, sessMultiset_card, sessMultiset_card] at hcard
      omega
    have hwb1 : WellBehavedOpt (s.Select (seed n)).2.1.stakeRdr := by
      rw [(select_pres (seed n) s).1]
      exact hwb
    obtain ⟨h1, h2, h3, h4⟩ := ih (s.Select (seed n)).2.1 hwb1 (by omega)
    have hrn : runSelect seed (n + 1) s
        = ((s.Select (seed n)).1.toList
            ++ (runSelect seed n (s.Select (seed n)).2.1).1,
           (runSelect seed n (s.Select (seed n)).2.1).2) := rfl
    rw [hrn]
    refine ⟨?_, ?_, ?_, ?_⟩
    · dsimp only
      rw [hsel]
      rw [show (some x).toList = [x] from rfl]
      rw [List.singleton_append, ← Multiset.cons_coe]
      rw [Multiset.cons_add, h1, hms]
    · dsimp only
      rw [h2]
      omega
    · dsimp only
      rw [h3, (select_pres (seed n) s).1]
    · dsimp only
      rw [hsel]
      rw [show (some x).toList = [x] from rfl]
      rw [List.length_append, h4, List.length_singleton]
      omega

theorem selectUnknownSession_mem (seed : Int) (s : MinLSSelector)
    (x : BroadcastSession) (hx : (s.selectUnknownSession seed).1 = some x) :
    x ∈ s.unknownSessions := by
  obtain ⟨u, k, ro, T⟩ := s
  cases u with
  | nil => rw [selectUnknownSession_nil] at hx; simp at hx
  | cons y rest =>
    cases ro with
    | none =>
      rw [selectUnknownSession_noOracle] at hx
      simp at hx
      rw [← hx]
      simp
    | some rdr =>
      cases ho : rdr (stakeAddrs (y :: rest)) with
      | error e =>
        rw [selectUnknownSession_err seed (y :: rest) k rdr T e (by simp) ho]
          at hx
        simp at hx
      | ok m =>
        rw [selectUnknownSession_ok seed (y :: rest) k rdr T m (by simp) ho]
          at hx
        cases hfw : findWinner (mapGet m) (lotteryR seed m) (y :: rest) with
        | none => rw [hfw] at hx; simp at hx
        | some i =>
          rw [hfw] at hx
          simp at hx
          rw [← hx]
          exact idx_mem _ _ (findWinner_lt_length _ _ _ _ hfw)

theorem selectUnknownSession_calls (seed : Int) (u k : List BroadcastSession)
    (rdr : StakeOracle) (T : ℚ) (hu : u ≠ []) :
    ((MinLSSelector.mk u k (some rdr) T).selectUnknownSession seed).2.2
      = [stakeAddrs u] := by
  cases u with
  | nil => exact absurd rfl hu
  | cons y rest =>
    cases ho : rdr (stakeAddrs (y :: rest)) with
    | error e =>
      rw [selectUnknownSession_err seed (y :: rest) k rdr T e (by simp) ho]
    | ok m =>
      rw [selectUnknownSession_ok seed (y :: rest) k rdr T m (by simp) ho]
      split <;> rfl

theorem take_last_append (l : List BroadcastSession) (hne : l ≠ []) :
    l.take (l.length - 1) ++ [idx l (l.length - 1)] = l := by
  induction l with
  | nil => exact absurd rfl hne
  | cons x t ih =>
    cases t with
    | nil => rfl
    | cons y u =>
      have hsucc : (x :: y :: u).length - 1 = ((y :: u).length - 1) + 1 := by
        simp
      rw [hsucc, idx_cons_succ]
      rw [show (x :: y :: u).take (((y :: u).length - 1) + 1)
        = x :: (y :: u).take ((y :: u).length - 1) from rfl]
      rw [List.cons_append, ih (by simp)]

theorem mapGet_all_zero (m : List (Addr × Int)) (hz : ∀ p ∈ m, p.2 = 0)
    (a : Addr) : mapGet m a = 0 := by
  induction m with
  | nil => rfl
  | cons p rest ih =>
    obtain ⟨kk, v⟩ := p
    rw [mapGet]
    by_cases hk : kk = a
    · rw [if_pos hk]
      exact hz (kk, v) (by simp)
    · rw [if_neg hk]
      exact ih (fun q hq => hz q (by simp [hq]))

theorem runSelect_noOracle_fifo (seeds : Nat → Int) (T : ℚ) :
    ∀ u : List BroadcastSession,
      (runSelect seeds u.length (MinLSSelector.mk u [] none T)).1 = u := by
  intro u
  induction u with
  | nil => rfl
  | cons x rest ih =>
    have hsel : (MinLSSelector.mk (x :: rest) [] none T).Select
        (seeds rest.length) = (some x, MinLSSelector.mk rest [] none T, []) :=
      rfl
    have hrn : runSelect seeds (x :: rest).length
        (MinLSSelector.mk (x :: rest) [] none T)
        = (((MinLSSelector.mk (x :: rest) [] none T).Select
              (seeds rest.length)).1.toList
            ++ (runSelect seeds rest.length
              ((MinLSSelector.mk (x :: rest) [] none T).Select
                (seeds rest.length)).2.1).1,
           (runSelect seeds rest.length
              ((MinLSSelector.mk (x :: rest) [] none T).Select
                (seeds rest.length)).2.1).2) := rfl
    rw [hrn, hsel]
    rw [show (some x).toList = [x] from rfl, List.singleton_append]
    rw [show ((some x, MinLSSelector.mk rest [] none T,
      ([] : List (List Addr))).2.1) = MinLSSelector.mk rest [] none T from rfl]
    rw [ih]

/-- C1: threshold routing. Under the heap invariant the peeked head of
the scored heap is its minimum-score entry. If that score exceeds the
threshold while unscored sessions exist, Select leaves the heap untouched
and draws from the unscored collection (any returned session is an
unscored one); otherwise Select removes and returns that minimum-score
entry, leaving the unscored sequence untouched. -/
theorem C1_threshold_routing (seed : Int) (s : MinLSSelector)
    (hp : heapProp s.knownSessions) (hne : s.knownSessions ≠ []) :
    (∀ y ∈ s.knownSessions,
      (idx s.knownSessions 0).LatencyScore ≤ y.LatencyScore) ∧
    ((s.minLS < (idx s.knownSessions 0).LatencyScore ∧ s.unknownSessions ≠ []) →
      (s.Select seed).2.1.knownSessions = s.knownSessions ∧
      (s.Select seed).1 = (s.selectUnknownSession seed).1 ∧
      (∀ x, (s.Select seed).1 = some x → x ∈ s.unknownSessions)) ∧
    (((idx s.knownSessions 0).LatencyScore ≤ s.minLS ∨ s.unknownSessions = []) →
      (s.Select seed).1 = some (idx s.knownSessions 0) ∧
      idx s.knownSessions 0 ::ₘ ((s.Select seed).2.1.knownSessions :
        Multiset BroadcastSession)
        = (s.knownSessions : Multiset BroadcastSession) ∧
      (s.Select seed).2.1.unknownSessions = s.unknownSessions) := by
  refine ⟨fun y hy => heapProp_root_min _ hp y hy, ?_, ?_⟩
  · intro hcond
    have hpath : takesUnscoredPath s := Or.inr hcond
    rw [Select_unscored seed s hpath]
    exact ⟨(selectUnknownSession_pres seed s).1, rfl,
      fun x hx => selectUnknownSession_mem seed s x hx⟩
  · intro hcond
    have hpath : ¬ takesUnscoredPath s := by
      intro hcon
      rcases hcon with hnil | ⟨hlt, hneu⟩
      · exact hne hnil
      · rcases hcond with hle | hnilu
        · exact absurd hlt (not_lt.mpr hle)
        · exact hneu hnilu
    rw [Select_heap seed s hne hpath]
    refine ⟨?_, ?_, rfl⟩
    · dsimp only
      rw [heapPopped_fst _ hne]
    · dsimp only
      exact multiset_heapPopped _ hne

theorem C1_witness :
    ((MinLSSelector.mk [exA] [exHot] none 50).Select 0).2.1.knownSessions
      = [exHot] :=
  ((C1_threshold_routing 0 (MinLSSelector.mk [exA] [exHot] none 50)
    (by decide) (by decide)).2.1 ⟨by decide, by decide⟩).1

/-- C8: on a reachable selector state, whenever the threshold policy
routes Select to the scored heap, the removed and returned session has
minimal latency score among all sessions in the heap; consequently a
session with a strictly smaller-scored companion in the heap is never
the one returned. -/
theorem C8_heap_ordering (seed : Int) (s : MinLSSelector) (hr : Reachable s)
    (hne : s.knownSessions ≠ []) (hpath : ¬ takesUnscoredPath s) :
    ∃ x, (s.Select seed).1 = some x ∧
      x ∈ s.knownSessions ∧
      (∀ y ∈ s.knownSessions, x.LatencyScore ≤ y.LatencyScore) ∧
      x ::ₘ ((s.Select seed).2.1.knownSessions : Multiset BroadcastSession)
        = (s.knownSessions : Multiset BroadcastSession) ∧
      (s.Select seed).2.1.unknownSessions = s.unknownSessions ∧
      ∀ y ∈ s.knownSessions,
        (∃ z ∈ s.knownSessions, z.LatencyScore < y.LatencyScore) → x ≠ y := by
  have hp := reachable_heapProp s hr
  rw [Select_heap seed s hne hpath]
  refine ⟨(heapPopped s.knownSessions).1, rfl, ?_, ?_, ?_, rfl, ?_⟩
  · rw [heapPopped_fst _ hne]
    exact idx_mem _ _ (List.length_pos.mpr hne)
  · rw [heapPopped_fst _ hne]
    exact fun y hy => heapProp_root_min _ hp y hy
  · dsimp only
    rw [heapPopped_fst _ hne]
    exact multiset_heapPopped _ hne
  · rintro y hy ⟨z, hz, hzy⟩ heq
    rw [heapPopped_fst _ hne] at heq
    have h1 := heapProp_root_min _ hp z hz
    rw [heq] at h1
    exact absurd h1 (not_le.mpr hzy)

theorem C8_known_example :
    ((NewMinLSSelector none (50 : ℚ)).Complete exHot).knownSessions
      = [exHot] := by
  show heapPush [] exHot = [exHot]
  unfold heapPush
  rw [show (([] : List BroadcastSession) ++ [exHot]) = [exHot] from rfl,
    show ([] : List BroadcastSession).length = 0 from rfl, siftup]

theorem C8_witness :
    ∃ x, (((NewMinLSSelector none (50 : ℚ)).Complete exHot).Select 0).1 = some x ∧
      x ∈ ((NewMinLSSelector none (50 : ℚ)).Complete exHot).knownSessions ∧
      (∀ y ∈ ((NewMinLSSelector none (50 : ℚ)).Complete exHot).knownSessions,
        x.LatencyScore ≤ y.LatencyScore) ∧
      x ::ₘ (((((NewMinLSSelector none (50 : ℚ)).Complete exHot).Select 0).2.1.knownSessions :
        List BroadcastSession) : Multiset BroadcastSession)
        = (((NewMinLSSelector none (50 : ℚ)).Complete exHot).knownSessions :
          Multiset BroadcastSession) ∧
      (((NewMinLSSelector none (50 : ℚ)).Complete exHot).Select 0).2.1.unknownSessions
        = ((NewMinLSSelector none (50 : ℚ)).Complete exHot).unknownSessions ∧
      ∀ y ∈ ((NewMinLSSelector none (50 : ℚ)).Complete exHot).knownSessions,
        (∃ z ∈ ((NewMinLSSelector none (50 : ℚ)).Complete exHot).knownSessions,
          z.LatencyScore < y.LatencyScore) → x ≠ y :=
  C8_heap_ordering 0 ((NewMinLSSelector none (50 : ℚ)).Complete exHot)
    (Reachable.complete _ _ (Reachable.new none 50))
    (by rw [C8_known_example]; simp)
    (by
      intro hcon
      rcases hcon with hnil | ⟨h1, h2⟩
      · rw [C8_known_example] at hnil
        exact absurd hnil (by simp)
      · exact h2 rfl)

/-- C2: no loss and no duplication. Build a selector by any sequence of
Add and Complete calls; with an oracle that never fails (and honours the
spec contract for the returned map), draining Size-many Select calls
returns exactly the inserted multiset, one session per call, ending at
Size zero; moreover every single Select on a non-empty well-behaved
selector returns a session and shrinks Size by exactly one. -/
theorem C2_no_loss_no_dup (seed : Nat → Int) (rdr : Option StakeOracle)
    (T : ℚ) (ops : List SetupOp) (hwb : WellBehavedOpt rdr) :
    (((runSelect seed (buildFrom rdr T ops).Size (buildFrom rdr T ops)).1 :
        List BroadcastSession) : Multiset BroadcastSession)
      = ((opsSessions ops : List BroadcastSession) : Multiset BroadcastSession) ∧
    (runSelect seed (buildFrom rdr T ops).Size (buildFrom rdr T ops)).2.Size
      = 0 ∧
    (runSelect seed (buildFrom rdr T ops).Size (buildFrom rdr T ops)).1.length
      = (buildFrom rdr T ops).Size ∧
    ∀ (t : MinLSSelector) (sd : Int), WellBehavedOpt t.stakeRdr → 0 < t.Size →
      ∃ x, (t.Select sd).1 = some x ∧ (t.Select sd).2.1.Size + 1 = t.Size := by
  have hwb0 : WellBehavedOpt (buildFrom rdr T ops).stakeRdr := by
    rw [buildFrom_stakeRdr]
    exact hwb
  obtain ⟨h1, h2, h3, h4⟩ := runSelect_drain seed (buildFrom rdr T ops).Size
    (buildFrom rdr T ops) hwb0 (le_refl _)
  refine ⟨?_, by rw [h2]; omega, h4, ?_⟩
  · have hz : sessMultiset
        (runSelect seed (buildFrom rdr T ops).Size (buildFrom rdr T ops)).2
        = 0 := by
      apply Multiset.card_eq_zero.mp
      rw [sessMultiset_card, h2]
      omega
    rw [hz, add_zero] at h1
    rw [h1, buildFrom_multiset]
  · intro t sd hwbt hszt
    obtain ⟨x, hsx, hmx⟩ := Select_success sd t hwbt hszt
    refine ⟨x, hsx, ?_⟩
    have hcard := congrArg Multiset.card hmx
    rw [Multiset.card_cons, sessMultiset_card, sessMultiset_card] at hcard
    omega

theorem C2_witness :
    (((runSelect (fun _ => 0)
        (buildFrom none 0 [SetupOp.addOp [exA, exB], SetupOp.completeOp exC]).Size
        (buildFrom none 0 [SetupOp.addOp [exA, exB], SetupOp.completeOp exC])).1 :
      List BroadcastSession) : Multiset BroadcastSession)
      = ((opsSessions [SetupOp.addOp [exA, exB], SetupOp.completeOp exC] :
        List BroadcastSession) : Multiset BroadcastSession) :=
  (C2_no_loss_no_dup (fun _ => 0) none 0
    [SetupOp.addOp [exA, exB], SetupOp.completeOp exC] trivial).1

/-- C3: the stake-weighted lottery on the oracle path. The draw r (the
value of the uniform rand.Int63n call, modelled by a seed reduced into
range) lies in the half-open interval from 0 to totalStake when the total
is positive and is 0 otherwise; the winner is the first session in
sequence order at which r minus the running stake sum drops to 0 or
below; the winner is removed by the swap-with-last truncation, leaving a
permutation (equal multiset) of the other sessions; and when every
returned stake is zero the first session in arrival order wins. -/
theorem C3_weighted_lottery (seed : Int) (u k : List BroadcastSession)
    (rdr : StakeOracle) (T : ℚ) (m : List (Addr × Int))
    (hu : u ≠ []) (hok : rdr (stakeAddrs u) = Except.ok m) :
    (0 < (m.map Prod.snd).sum →
      0 ≤ lotteryR seed m ∧ lotteryR seed m < (m.map Prod.snd).sum) ∧
    ((m.map Prod.snd).sum ≤ 0 → lotteryR seed m = 0) ∧
    (∀ i, findWinner (mapGet m) (lotteryR seed m) u = some i →
      ((MinLSSelector.mk u k (some rdr) T).selectUnknownSession seed).1
          = some (idx u i) ∧
      ((MinLSSelector.mk u k (some rdr) T).selectUnknownSession
          seed).2.1.unknownSessions = removeSwapLast u i ∧
      i < u.length ∧
      lotteryR seed m - sumLook (mapGet m) (u.take (i + 1)) ≤ 0 ∧
      (∀ j, j < i → 0 < lotteryR seed m - sumLook (mapGet m) (u.take (j + 1))) ∧
      idx u i ::ₘ ((removeSwapLast u i : List BroadcastSession) :
        Multiset BroadcastSession) = (u : Multiset BroadcastSession)) ∧
    ((∀ p ∈ m, p.2 = 0) →
      ((MinLSSelector.mk u k (some rdr) T).selectUnknownSession seed).1
        = some (idx u 0)) := by
  refine ⟨?_, ?_, ?_, ?_⟩
  · intro htot
    unfold lotteryR
    rw [if_pos htot]
    exact ⟨Int.emod_nonneg seed (by omega), Int.emod_lt_of_pos seed htot⟩
  · intro htot
    unfold lotteryR
    rw [if_neg (by omega)]
  · intro i hfw
    obtain ⟨hlt, hrun, hbefore⟩ := findWinner_spec _ _ _ _ hfw
    refine ⟨?_, ?_, hlt, hrun, hbefore, multiset_removeSwapLast u i hlt⟩
    · rw [selectUnknownSession_ok seed u k rdr T m hu hok, hfw]
    · rw [selectUnknownSession_ok seed u k rdr T m hu hok, hfw]
  · intro hz
    have htot : (m.map Prod.snd).sum = 0 := by
      apply List.sum_eq_zero
      intro v hv
      simp only [List.mem_map] at hv
      obtain ⟨p, hp, hpv⟩ := hv
      rw [← hpv]
      exact hz p hp
    have hr : lotteryR seed m = 0 := by
      unfold lotteryR
      rw [if_neg (by omega)]
    cases u with
    | nil => exact absurd rfl hu
    | cons x rest =>
      have hfw : findWinner (mapGet m) (lotteryR seed m) (x :: rest)
          = some 0 := by
        have hcond : lotteryR seed m - mapGet m x.Recipient ≤ 0 := by
          rw [hr, mapGet_all_zero m hz]
          omega
        rw [findWinner, if_pos hcond]
      rw [selectUnknownSession_ok seed (x :: rest) k rdr T m hu hok, hfw]

theorem C3_witness :
    ((MinLSSelector.mk [exA, exB] [] (some exOracle) 0).selectUnknownSession 9).1
      = some (idx [exA, exB] 0) :=
  ((C3_weighted_lottery 9 [exA, exB] [] exOracle 0 [(1, 3), (2, 5)]
    (by decide) rfl).2.2.1 0 (by decide)).1

/-- C4: oracle failure is non-destructive. If Select routes to the
oracle-backed unscored path and the Stakes call returns an error, Select
returns none and the state is exactly the one it started from, so the
caller may simply call Select again. -/
theorem C4_oracle_failure (seed : Int) (s : MinLSSelector)
    (rdr : StakeOracle) (e : Unit)
    (hrdr : s.stakeRdr = some rdr)
    (hpath : takesUnscoredPath s)
    (hne : s.unknownSessions ≠ [])
    (herr : rdr (stakeAddrs s.unknownSessions) = Except.error e) :
    (s.Select seed).1 = none ∧ (s.Select seed).2.1 = s ∧
    (s.Select seed).2.1.Size = s.Size := by
  rw [Select_unscored seed s hpath]
  obtain ⟨u, k, ro, T⟩ := s
  have hro : ro = some rdr := hrdr
  subst hro
  rw [selectUnknownSession_err seed u k rdr T e hne herr]
  exact ⟨rfl, rfl, rfl⟩

theorem C4_witness :
    ((MinLSSelector.mk [exA] [] (some errOracle) 0).Select 5).1 = none ∧
    ((MinLSSelector.mk [exA] [] (some errOracle) 0).Select 5).2.1
      = MinLSSelector.mk [exA] [] (some errOracle) 0 :=
  ⟨(C4_oracle_failure 5 (MinLSSelector.mk [exA] [] (some errOracle) 0)
      errOracle () rfl (Or.inl rfl) (by decide) rfl).1,
   (C4_oracle_failure 5 (MinLSSelector.mk [exA] [] (some errOracle) 0)
      errOracle () rfl (Or.inl rfl) (by decide) rfl).2.1⟩

/-- C5 counterexample: from the empty LIFO selector, Add([exA, exB])
followed by Select returns exB, not exA: the batch is prepended whole and
Select draws from the back, so the claim that this Select returns A fails. -/
theorem C5_counterexample :
    (LIFOSelector.Select (LIFOSelector.Add ([] : LIFOSelector) [exA, exB]))
      = some (exB, [exA]) ∧ exB ≠ exA := by
  exact ⟨rfl, by decide⟩

/-- C5 amended: from the empty LIFO selector, after Add([A, B]) the first
Select returns B (the back of the sequence, because Add prepends the
batch in order); then after Complete(C) the next Select returns C and
restores the state Select left behind. -/
theorem C5_lifo_scenario (A B Cc : BroadcastSession) :
    ∀ p : BroadcastSession × LIFOSelector,
      (LIFOSelector.Add ([] : LIFOSelector) [A, B]).Select = some p →
      p.1 = B ∧ (p.2.Complete Cc).Select = some (Cc, p.2) := by
  intro p hp
  have hval : (some (B, ([A] : LIFOSelector)) :
      Option (BroadcastSession × LIFOSelector)) = some p := by
    rw [← hp]
    rfl
  have hp2 : p = (B, ([A] : LIFOSelector)) := (Option.some_inj.mp hval).symm
  subst hp2
  exact ⟨rfl, rfl⟩

theorem C5_witness :
    (exB, ([exA] : LIFOSelector)).1 = exB ∧
    LIFOSelector.Select
        (LIFOSelector.Complete (exB, ([exA] : LIFOSelector)).2 exC)
      = some (exC, (exB, ([exA] : LIFOSelector)).2) :=
  C5_lifo_scenario exA exB exC (exB, [exA]) rfl

/-- C6 counterexample: two unscored sessions sharing stake address 7 make
Select pass the address list with 7 listed twice to Stakes, so the
argument is not a deduplicated set in which each distinct address appears
exactly once. -/
theorem C6_counterexample :
    ((MinLSSelector.mk [exShared1, exShared2] [] (some emptyOracle) 0).Select
      0).2.2 = [[7, 7]] ∧ ¬ ([7, 7] : List Addr).Nodup := by
  exact ⟨rfl, by decide⟩

/-- C6 amended: on the oracle-backed unscored path Select calls Stakes
exactly once per call, and the argument is the per-session list of stake
addresses of the unscored sessions in sequence order, one entry per
session with no deduplication, so an address shared by several sessions
appears once per session. -/
theorem C6_stakes_call (seed : Int) (s : MinLSSelector) (rdr : StakeOracle)
    (hrdr : s.stakeRdr = some rdr) (hne : s.unknownSessions ≠ [])
    (hpath : takesUnscoredPath s) :
    (s.Select seed).2.2 = [stakeAddrs s.unknownSessions] ∧
    stakeAddrs s.unknownSessions
      = s.unknownSessions.map (fun sess => sess.Recipient) := by
  refine ⟨?_, rfl⟩
  rw [Select_unscored seed s hpath]
  obtain ⟨u, k, ro, T⟩ := s
  have hro : ro = some rdr := hrdr
  subst hro
  exact selectUnknownSession_calls seed u k rdr T hne

theorem C6_witness :
    ((MinLSSelector.mk [exShared1, exShared2] [] (some errOracle) 0).Select
      3).2.2 = [stakeAddrs [exShared1, exShared2]] :=
  (C6_stakes_call 3 (MinLSSelector.mk [exShared1, exShared2] []
    (some errOracle) 0) errOracle rfl (by decide) (Or.inl rfl)).1

/-- C7: with no oracle configured the unscored path is deterministic
FIFO: a Select routed to the unscored collection removes and returns the
first element of the unscored sequence, and draining an all-unscored pool
by repeated Select calls returns the sessions in exact arrival order. -/
theorem C7_offline_fifo (seed : Int) (seeds : Nat → Int) (s : MinLSSelector)
    (hrdr : s.stakeRdr = none) :
    (takesUnscoredPath s → s.unknownSessions ≠ [] →
      (s.Select seed).1 = some (idx s.unknownSessions 0) ∧
      (s.Select seed).2.1.unknownSessions = s.unknownSessions.tail ∧
      (s.Select seed).2.1.knownSessions = s.knownSessions) ∧
    (s.knownSessions = [] →
      (runSelect seeds s.unknownSessions.length s).1 = s.unknownSessions) := by
  obtain ⟨u, k, ro, T⟩ := s
  have hro : ro = none := hrdr
  subst hro
  constructor
  · intro hpath hne
    rw [Select_unscored seed _ hpath]
    cases u with
    | nil => exact absurd rfl hne
    | cons x rest =>
      rw [selectUnknownSession_noOracle]
      exact ⟨rfl, rfl, rfl⟩
  · intro hk
    have hkk : k = [] := hk
    subst hkk
    exact runSelect_noOracle_fifo seeds T u

theorem C7_witness :
    (runSelect (fun _ => 0) ([exA, exB, exC] : List BroadcastSession).length
      (MinLSSelector.mk [exA, exB, exC] [] none 0)).1 = [exA, exB, exC] :=
  (C7_offline_fifo 0 (fun _ => 0) (MinLSSelector.mk [exA, exB, exC] [] none 0)
    rfl).2 rfl

/-- C9: under the precondition Size > 0 the LIFO Select is total: it
returns the element at the back of the sequence, the remaining state is
the prefix holding all other elements in their original relative order,
and the length drops by exactly one; the out-of-range access of the
source is unreachable under this precondition. -/
theorem C9_lifo_select_total (s : LIFOSelector) (hsz : 0 < s.Size) :
    s.Select = some (idx s (s.length - 1), s.take (s.length - 1)) ∧
    (s.take (s.length - 1)).length + 1 = s.length ∧
    s.take (s.length - 1) ++ [idx s (s.length - 1)] = s := by
  have hne : s ≠ [] := by
    intro hcon
    rw [hcon] at hsz
    simp [LIFOSelector.Size] at hsz
  refine ⟨?_, ?_, take_last_append s hne⟩
  · cases s with
    | nil => exact absurd rfl hne
    | cons x t => rfl
  · rw [List.length_take, Nat.min_def]
    have hpos : 0 < s.length := List.length_pos.mpr hne
    split <;> omega

theorem C9_witness :
    LIFOSelector.Select ([exA, exB] : LIFOSelector)
      = some (idx [exA, exB] 1, [exA]) :=
  (C9_lifo_select_total [exA, exB] (by decide)).1

/-- C10: the LIFO round-trip law: for every state s and session x,
Complete(x) followed immediately by Select returns exactly x and leaves
the selector in state s again, including for the empty state. -/
theorem C10_complete_select_roundtrip (s : LIFOSelector)
    (x : BroadcastSession) : (s.Complete x).Select = some (x, s) := by
  unfold LIFOSelector.Complete LIFOSelector.Select
  rw [if_neg (by simp)]
  rw [List.length_append]
  rw [show s.length + [x].length - 1 = s.length from by simp]
  rw [idx_concat_len, List.take_left]
